import Mathlib

/-!
Verification of the rdiff orchestration layer (src/rdiff/main.go).

The file embeds, as executable Lean definitions, the streaming protocol and
pipeline layer of the rdiff utility: the framing codec for signature and
delta streams, the signature / delta / patch pipelines, the checksum-sentinel
integrity scheme, and the parallel file comparator.  Files and streams are
modelled as lists of bytes (`List Nat`); the concurrent decode/apply split of
the patch pipeline is modelled by its sequential denotation (the decode loop
produces the exact list of operations that the bounded channel delivers, in
order); the comparator's two reader tasks are modelled by the deterministic
chunking they produce.

Parts of the program that live outside the rdiff source file — the gob wire
format of the standard library and the sync engine
(`bitbucket.org/kardianos/rsync`: CreateSignature, CreateDelta, ApplyDelta)
— are modelled from the specification, and each such definition is marked
`Modelled from the spec:` in its doc comment.
-/

namespace RDiff

/-- Error values, mirroring the distinguished errors of main.go and of the Go
standard library: `io.EOF`, `io.ErrUnexpectedEOF`, a generic gob decode
error, `NoTargetSumError`, `HashNoMatchError`, the comparator's
"File size different." and "FAIL: Bytes differ at %d." errors, a comparator
read error, and errors returned by the sync engine. -/
inductive Err where
  | eof
  | unexpectedEOF
  | decodeCorrupt
  | noTargetSum
  | hashNoMatch
  | sizeDifferent
  | bytesDiffer (location : Nat)
  | readError
  | engineError (code : Nat)
  deriving DecidableEq, Repr

/-- Delta-stream operation.  Modelled from the spec: the data model of the
sync engine's `rsync.Operation` (the engine package is outside src/): a
tagged value that either copies bytes from the basis at a given offset,
inserts literal bytes, or is the whole-file-hash sentinel (`rsync.HASH`)
carrying a checksum payload. -/
inductive Op where
  | copy (off len : Nat)
  | insert (data : List Nat)
  | hash (digest : List Nat)
  deriving DecidableEq, Repr

/-- Whether an operation is the hash sentinel (`op.Type == rsync.HASH`). -/
def Op.isHash : Op → Bool
  | .hash _ => true
  | _ => false

/-- Block-hash record.  Modelled from the spec: one record per basis block,
holding its index, weak checksum and strong checksum (`rsync.BlockHash`,
outside src/). -/
structure BlockHash where
  index : Nat
  weak : Nat
  strong : List Nat
  deriving DecidableEq, Repr

/-! ### Framing codec

Modelled from the spec: the codec (gob in the source, a standard-library
collaborator) writes each value as a self-delimiting byte representation and
reads it back; decoding at a record boundary on an exhausted stream yields
the ordinary end-of-stream signal (`io.EOF`), while a stream that ends in the
middle of a record yields the unexpected-end error.  Numbers are framed as
base-255 digit lists terminated by the byte 255. -/

/-- Little-endian base-255 digits of `n`; the first argument is structural
fuel (`n` itself is always sufficient). -/
def digitsAux : Nat → Nat → List Nat
  | _, 0 => []
  | 0, _ + 1 => []
  | f + 1, n + 1 => (n + 1) % 255 :: digitsAux f ((n + 1) / 255)

/-- Little-endian base-255 digits of a natural number. -/
def natDigits (n : Nat) : List Nat := digitsAux n n

/-- Value of a little-endian base-255 digit list. -/
def ofNats (l : List Nat) : Nat := l.foldr (fun d acc => d + 255 * acc) 0

/-- Encode a natural number: its base-255 digits followed by the terminator
byte 255. -/
def encNat (n : Nat) : List Nat := natDigits n ++ [255]

/-- Decode a natural number from the front of a stream.  An exhausted stream
is ordinary end-of-stream; a stream with no terminator byte ends inside the
record and is the unexpected-end error. -/
def decNat (s : List Nat) : Except Err (Nat × List Nat) :=
  if s.isEmpty then .error .eof
  else
    let pre := s.takeWhile (fun b => b != 255)
    if pre.length = s.length then .error .unexpectedEOF
    else .ok (ofNats pre, s.drop (pre.length + 1))

/-- Reinterpret an end-of-stream signal occurring in the middle of a record
as the unexpected-end error; all other errors pass through. -/
def mapEOF : Err → Err
  | .eof => .unexpectedEOF
  | e => e

/-- Decode a natural number in the middle of a record: end-of-stream here
means the record is truncated, hence the unexpected-end error. -/
def decNatM (s : List Nat) : Except Err (Nat × List Nat) :=
  match decNat s with
  | .error e => .error (mapEOF e)
  | .ok v => .ok v

/-- Encode a byte string: its length, then its bytes. -/
def encNats (d : List Nat) : List Nat := encNat d.length ++ d

/-- Decode a byte string in the middle of a record. -/
def decNatsM (s : List Nat) : Except Err (List Nat × List Nat) :=
  match decNatM s with
  | .error e => .error e
  | .ok (n, r) =>
    if r.length < n then .error .unexpectedEOF
    else .ok (r.take n, r.drop n)

/-- Encode an operation: a type tag followed by its fields. -/
def encOp : Op → List Nat
  | .copy off len => 0 :: (encNat off ++ encNat len)
  | .insert d => 1 :: encNats d
  | .hash d => 2 :: encNats d

/-- Decode an operation from the front of a stream. -/
def decOp : List Nat → Except Err (Op × List Nat)
  | [] => .error .eof
  | t :: r =>
    if t = 0 then
      match decNatM r with
      | .error e => .error e
      | .ok (off, r1) =>
        match decNatM r1 with
        | .error e => .error e
        | .ok (len, r2) => .ok (.copy off len, r2)
    else if t = 1 then
      match decNatsM r with
      | .error e => .error e
      | .ok (d, r1) => .ok (.insert d, r1)
    else if t = 2 then
      match decNatsM r with
      | .error e => .error e
      | .ok (d, r1) => .ok (.hash d, r1)
    else .error .decodeCorrupt

/-- Encode a block-hash record: index, weak checksum, strong checksum. -/
def encBlockHash (bh : BlockHash) : List Nat :=
  encNat bh.index ++ encNat bh.weak ++ encNats bh.strong

/-- Decode a block-hash record from the front of a stream. -/
def decBlockHash (s : List Nat) : Except Err (BlockHash × List Nat) :=
  match decNat s with
  | .error e => .error e
  | .ok (idx, r1) =>
    match decNatM r1 with
    | .error e => .error e
    | .ok (weak, r2) =>
      match decNatsM r2 with
      | .error e => .error e
      | .ok (strong, r3) => .ok (⟨idx, weak, strong⟩, r3)

/-! ### Sync engine model

The sync engine (`bitbucket.org/kardianos/rsync`) is not part of the rdiff
source file; the definitions in this section are modelled from the spec
(sections 1, 3 and the glossary), which treats it as an external collaborator
reached through three operations: signature generation, delta generation and
delta application. -/

/-- Modelled from the spec: the whole-file hash accumulator (md5 in the
source; the spec treats the hash algorithm as an external, pluggable
component).  The digest of a byte stream is modelled as the stream itself,
a deterministic digest function of the hashed bytes, which is all the
pipeline layer relies on. -/
def md5Model (data : List Nat) : List Nat := data

/-- Modelled from the spec: the engine's weak (rolling) checksum of a block,
an unspecified deterministic function of the block bytes. -/
def weakModel (block : List Nat) : Nat := block.foldl (fun a b => a + b) 0

/-- Modelled from the spec: the engine's strong cryptographic checksum of a
block, modelled as the block contents themselves — a deterministic digest
that, like a collision-free cryptographic hash, determines the block. -/
def strongModel (block : List Nat) : List Nat := block

/-- Split a byte sequence into consecutive blocks of `bs` bytes (the last
block may be shorter).  The first argument is structural fuel; the length of
the list is always sufficient. -/
def chunkAux (bs : Nat) : Nat → List Nat → List (List Nat)
  | 0, _ => []
  | _, [] => []
  | f + 1, x :: xs => ((x :: xs).take bs) :: chunkAux bs f ((x :: xs).drop bs)

/-- Split a byte sequence into consecutive blocks of `bs` bytes. -/
def chunkList (bs : Nat) (l : List Nat) : List (List Nat) :=
  chunkAux bs l.length l

/-- Hash records for a list of blocks, indexed from `i` in block order. -/
def signBlocks (i : Nat) : List (List Nat) → List BlockHash
  | [] => []
  | c :: cs => ⟨i, weakModel c, strongModel c⟩ :: signBlocks (i + 1) cs

/-- Modelled from the spec: the engine's signature generation
(`rs.CreateSignature`): one block-hash record per basis block, in basis
order, with positional indices. -/
def createSignature (bs : Nat) (basis : List Nat) : List BlockHash :=
  signBlocks 0 (chunkList bs basis)

/-- The operation emitted for one block of the new file: a copy of a basis
block whose weak and strong checksums both match, or a literal insert. -/
def deltaOpFor (hl : List BlockHash) (bs : Nat) (blk : List Nat) : Op :=
  match hl.find? (fun bh =>
      (bh.weak == weakModel blk) && (bh.strong == strongModel blk)) with
  | some bh => Op.copy (bh.index * bs) blk.length
  | none => Op.insert blk

/-- Modelled from the spec: the engine's delta generation (`rs.CreateDelta`):
for each block of the new file, either emit a copy of a matching basis block
found in the signature hash list (matched by weak and strong checksum) or
emit the block's bytes as a literal insert.  Operations are emitted in
new-file order; the engine never emits the hash sentinel. -/
def createDeltaOps (bs : Nat) (hl : List BlockHash) (nf : List Nat) : List Op :=
  (chunkList bs nf).map (deltaOpFor hl bs)

/-- Modelled from the spec: one step of the engine's delta application
(`rs.ApplyDelta`): a copy appends the referenced basis bytes to the output,
an insert appends its literal bytes.  A copy that references bytes beyond
the end of the basis fails, and the hash sentinel is not a reconstruction
instruction, so receiving one is also an engine failure. -/
def applyOp (basis out : List Nat) : Op → Except Err (List Nat)
  | .copy off len =>
    if off + len ≤ basis.length then .ok (out ++ ((basis.drop off).take len))
    else .error (.engineError 0)
  | .insert d => .ok (out ++ d)
  | .hash _ => .error (.engineError 1)

/-- Apply a sequence of operations to the output accumulated so far. -/
def applyOpsFrom (basis : List Nat) : List Nat → List Op → Except Err (List Nat)
  | out, [] => .ok out
  | out, op :: rest =>
    match applyOp basis out op with
    | .error e => .error e
    | .ok out2 => applyOpsFrom basis out2 rest

/-- Modelled from the spec: the engine's delta application consumes the
operations in channel order, writing the reconstructed file from empty. -/
def applyOps (basis : List Nat) (ops : List Op) : Except Err (List Nat) :=
  applyOpsFrom basis [] ops

/-! ### Signature pipeline (main.go `signature`) -/

/-- Signature pipeline: encode the block size header, then one framed
block-hash record per basis block, in the order the engine emits them. -/
def signaturePipeline (bs : Nat) (basis : List Nat) : List Nat :=
  encNat bs ++ ((createSignature bs basis).map encBlockHash).flatten

/-! ### Delta pipeline (main.go `delta`) -/

/-- Decode block-hash records until end-of-stream (the signature-loading loop
of main.go `delta`): end-of-stream at a record boundary terminates the loop;
any other error aborts with that error.  The first argument is structural
fuel; `s.length + 1` is always sufficient. -/
def decBlockHashesAux : Nat → List Nat → Except Err (List BlockHash)
  | 0, _ => .error .decodeCorrupt
  | f + 1, s =>
    match decBlockHash s with
    | .error .eof => .ok []
    | .error e => .error e
    | .ok (bh, r) =>
      match decBlockHashesAux f r with
      | .error e => .error e
      | .ok hl => .ok (bh :: hl)

/-- Decode block-hash records until end-of-stream. -/
def decBlockHashes (s : List Nat) : Except Err (List BlockHash) :=
  decBlockHashesAux (s.length + 1) s

/-- Writing phase of the delta pipeline (main.go `delta`, after the signature
is loaded): encode the block size header, encode each operation the engine
emits in order, and — when the engine succeeded and checking is enabled —
append the sentinel hash operation carrying the finalized digest.  The
engine interaction is abstracted by the operations it emitted (`engineOps`),
the error it returned (`engineErr`), and the finalized hasher digest
(`digest`).  Returns the bytes written to the delta stream together with the
error the delta verb returns. -/
def deltaWrite (bs : Nat) (engineOps : List Op) (engineErr : Option Err)
    (digest : List Nat) (check : Bool) : List Nat × Option Err :=
  let header := encNat bs
  let body := (engineOps.map encOp).flatten
  match engineErr with
  | some e => (header ++ body, some e)
  | none =>
    if check then (header ++ body ++ encOp (.hash digest), none)
    else (header ++ body, none)

/-- Delta pipeline: decode the signature stream's block-size header (an
already-exhausted stream is the unexpected-end error), load the block-hash
list, then write the delta stream, running the engine's delta generator with
a hasher over the new file when checking is enabled. -/
def deltaPipeline (sigStream nf : List Nat) (check : Bool) :
    Except Err (List Nat) :=
  match decNat sigStream with
  | .error e => .error (mapEOF e)
  | .ok (bs, rest) =>
    match decBlockHashes rest with
    | .error e => .error e
    | .ok hl =>
      let w := deltaWrite bs (createDeltaOps bs hl nf) none (md5Model nf) check
      match w.2 with
      | some e => .error e
      | none => .ok w.1

/-! ### Patch pipeline (main.go `patch`)

The decode goroutine and the bounded operations channel are modelled by
their sequential denotation: the decode loop yields the list of operations
pushed onto the channel (in push order), the captured sentinel payload
(`sourceSum`), and the captured decode error. -/

/-- Decode loop of the patch pipeline: decode operations until end-of-stream;
a sentinel's payload is captured (the last one seen wins) and the sentinel is
not forwarded; any other operation is forwarded in order; a decode error is
captured and ends the loop.  Returns (forwarded operations, captured
checksum, captured decode error).  The first argument is structural fuel;
`s.length + 1` is always sufficient. -/
def decodeOpsAux : Nat → List Nat → List Op × Option (List Nat) × Option Err
  | 0, _ => ([], none, some .decodeCorrupt)
  | f + 1, s =>
    match decOp s with
    | .error .eof => ([], none, none)
    | .error e => ([], none, some e)
    | .ok (op, r) =>
      match op with
      | .hash d =>
        let (ops, sum, e) := decodeOpsAux f r
        (ops, (match sum with | some x => some x | none => some d), e)
      | _ =>
        let (ops, sum, e) := decodeOpsAux f r
        (op :: ops, sum, e)

/-- Decode loop of the patch pipeline. -/
def decodeOps (s : List Nat) : List Op × Option (List Nat) × Option Err :=
  decodeOpsAux (s.length + 1) s

/-- Patch pipeline: decode the delta stream's block-size header (an
already-exhausted stream is the unexpected-end error), run the decode loop
and the engine's delta application, then return the first of: the apply
error, the captured decode error, and — when checking is enabled — the
integrity verdict (missing sentinel, mismatched sentinel, or success). -/
def patchPipeline (basis deltaStream : List Nat) (check : Bool) :
    Except Err (List Nat) :=
  match decNat deltaStream with
  | .error e => .error (mapEOF e)
  | .ok (_, rest) =>
    let dec := decodeOps rest
    match applyOps basis dec.1 with
    | .error e => .error e
    | .ok out =>
      match dec.2.2 with
      | some e => .error e
      | none =>
        if check = false then .ok out
        else
          match dec.2.1 with
          | none => .error .noTargetSum
          | some sourceSum =>
            if sourceSum = md5Model out then .ok out
            else .error .hashNoMatch

/-! ### Parallel comparator (main.go `test`)

The two reader tasks are modelled by the chunkings they produce (each reader
fills 32 KiB buffers from its file and forwards only non-empty chunks, in
file order); the merge loop is modelled directly. -/

/-- Byte-compare loop over the overlapping prefix of the two current chunks
(the inner `for i` loop of main.go `test`): returns the running offset of the
first mismatching byte, or none when the overlapping prefix matches. -/
def scanBytes : List Nat → List Nat → Nat → Option Nat
  | x :: xs, y :: ys, location =>
    if x ≠ y then some location else scanBytes xs ys (location + 1)
  | _, _, _ => none

/-- Merge loop of the comparator: when a side's current chunk is exhausted,
pull the next chunk from that side's queue, treating a closed queue as full
success; otherwise compare the overlapping prefix of the two chunks and
advance both past it.  The first argument is structural fuel; total bytes
plus total chunk count plus one is always sufficient. -/
def mergeAux : Nat → List (List Nat) → List (List Nat) → List Nat → List Nat →
    Nat → Except Err Unit
  | 0, _, _, _, _, _ => .error .readError
  | f + 1, cs1, cs2, b1, b2, location =>
    match b1 with
    | [] =>
      match cs1 with
      | [] => .ok ()
      | c :: cs => mergeAux f cs cs2 c b2 location
    | _ :: _ =>
      match b2 with
      | [] =>
        match cs2 with
        | [] => .ok ()
        | c :: cs => mergeAux f cs1 cs b1 c location
      | _ :: _ =>
        match scanBytes b1 b2 location with
        | some l => .error (.bytesDiffer l)
        | none =>
          let size := min b1.length b2.length
          mergeAux f cs1 cs2 (b1.drop size) (b2.drop size) (location + size)

/-- Comparator (main.go `test`): compare the two file sizes first — a
mismatch is the distinguished size failure, decided from the sizes alone —
then stream both files through the merge loop in 32 KiB chunks. -/
def test (f1 f2 : List Nat) : Except Err Unit :=
  if f1.length ≠ f2.length then .error .sizeDifferent
  else
    mergeAux (f1.length + f2.length + (chunkList 32768 f1).length +
        (chunkList 32768 f2).length + 1)
      (chunkList 32768 f1) (chunkList 32768 f2) [] [] 0

/-! ### Reference definitions used to state claims -/

/-- First offset at which two byte sequences differ within their common
length: the reference for the comparator's reported offset. -/
def firstDiff : List Nat → List Nat → Option Nat
  | x :: xs, y :: ys =>
    if x ≠ y then some 0 else (firstDiff xs ys).map (· + 1)
  | _, _ => none

/-- Reference decode of a delta stream body: the raw sequence of operations
in stream order (sentinels included), together with the terminal status
(none for clean end-of-stream, the decode error otherwise).  The first
argument is structural fuel; `s.length + 1` is always sufficient. -/
def decodeAllAux : Nat → List Nat → List Op × Option Err
  | 0, _ => ([], some .decodeCorrupt)
  | f + 1, s =>
    match decOp s with
    | .error .eof => ([], none)
    | .error e => ([], some e)
    | .ok (op, r) =>
      let (ops, e) := decodeAllAux f r
      (op :: ops, e)

/-- Reference decode of a delta stream body. -/
def decodeAll (s : List Nat) : List Op × Option Err :=
  decodeAllAux (s.length + 1) s

/-- The payload of the last sentinel in a sequence of operations: the value
a last-assignment-wins capture of sentinel payloads ends with. -/
def lastHashData : List Op → Option (List Nat)
  | [] => none
  | .hash d :: rest =>
    match lastHashData rest with
    | some x => some x
    | none => some d
  | _ :: rest => lastHashData rest

/-- Size of the state of the comparator merge loop: chunk counts plus bytes
still to be compared; every iteration strictly decreases it. -/
def mergeMeasure (cs1 cs2 : List (List Nat)) (b1 b2 : List Nat) : Nat :=
  cs1.length + cs2.length + cs1.flatten.length + cs2.flatten.length +
    b1.length + b2.length

/-! ### Codec round-trip lemmas -/

theorem digitsAux_lt (f n : Nat) : ∀ d ∈ digitsAux f n, d < 255 := by
  induction f generalizing n with
  | zero =>
    intro d hd
    cases n <;> simp [digitsAux] at hd
  | succ f ih =>
    intro d hd
    cases n with
    | zero => simp [digitsAux] at hd
    | succ m =>
      simp only [digitsAux, List.mem_cons] at hd
      rcases hd with h | h
      · subst h; exact Nat.mod_lt _ (by omega)
      · exact ih _ _ h

theorem ofNats_cons (d : Nat) (l : List Nat) :
    ofNats (d :: l) = d + 255 * ofNats l := rfl

theorem ofNats_digitsAux (f n : Nat) (h : n ≤ f) :
    ofNats (digitsAux f n) = n := by
  induction f generalizing n with
  | zero =>
    interval_cases n
    simp [digitsAux, ofNats]
  | succ f ih =>
    cases n with
    | zero => simp [digitsAux, ofNats]
    | succ m =>
      have hdiv : (m + 1) / 255 ≤ f := by
        have := Nat.div_lt_self (Nat.succ_pos m) (by omega : 1 < 255)
        omega
      have hstep : digitsAux (f + 1) (m + 1) =
          (m + 1) % 255 :: digitsAux f ((m + 1) / 255) := rfl
      rw [hstep, ofNats_cons, ih ((m + 1) / 255) hdiv]
      exact Nat.mod_add_div (m + 1) 255

theorem ofNats_natDigits (n : Nat) : ofNats (natDigits n) = n :=
  ofNats_digitsAux n n (Nat.le_refl n)

theorem natDigits_lt (n : Nat) : ∀ d ∈ natDigits n, d < 255 :=
  digitsAux_lt n n

theorem takeWhile_ne_append (l rest : List Nat) (h : ∀ x ∈ l, x < 255) :
    (l ++ 255 :: rest).takeWhile (fun b => b != 255) = l := by
  induction l with
  | nil => simp [List.takeWhile]
  | cons x t ih =>
    have hx : x < 255 := h x (List.mem_cons_self x t)
    have : (x != 255) = true := by
      simp only [bne_iff_ne, ne_eq]
      omega
    simp only [List.cons_append, List.takeWhile_cons, this, if_true]
    rw [ih (fun y hy => h y (List.mem_cons_of_mem x hy))]

theorem decNat_encNat (n : Nat) (rest : List Nat) :
    decNat (encNat n ++ rest) = .ok (n, rest) := by
  have hlt := natDigits_lt n
  have hs : encNat n ++ rest = natDigits n ++ 255 :: rest := by
    simp [encNat]
  rw [hs]
  unfold decNat
  have hemp : (natDigits n ++ 255 :: rest).isEmpty = false := by
    simp [List.isEmpty_iff]
  rw [hemp]
  simp only [Bool.false_eq_true, if_false]
  rw [takeWhile_ne_append _ _ hlt]
  have hlen : (natDigits n).length ≠ (natDigits n ++ 255 :: rest).length := by
    simp
  rw [if_neg hlen]
  have hdrop : (natDigits n ++ 255 :: rest).drop ((natDigits n).length + 1) = rest := by
    have h2 : natDigits n ++ 255 :: rest = (natDigits n ++ [255]) ++ rest := by simp
    rw [h2]
    have hl : (natDigits n ++ [255]).length = (natDigits n).length + 1 := by simp
    rw [← hl, List.drop_left]
  rw [hdrop, ofNats_natDigits]

theorem decNatM_encNat (n : Nat) (rest : List Nat) :
    decNatM (encNat n ++ rest) = .ok (n, rest) := by
  unfold decNatM
  rw [decNat_encNat]

theorem decNatsM_encNats (d rest : List Nat) :
    decNatsM (encNats d ++ rest) = .ok (d, rest) := by
  unfold decNatsM
  have hs : encNats d ++ rest = encNat d.length ++ (d ++ rest) := by
    simp [encNats]
  rw [hs, decNatM_encNat]
  have hlen : ¬ (d ++ rest).length < d.length := by simp
  simp only [hlen, if_false, List.take_left, List.drop_left]

theorem decOp_encOp (op : Op) (rest : List Nat) :
    decOp (encOp op ++ rest) = .ok (op, rest) := by
  cases op with
  | copy off len => simp [encOp, decOp, decNatM_encNat]
  | insert d => simp [encOp, decOp, decNatsM_encNats]
  | hash d => simp [encOp, decOp, decNatsM_encNats]

theorem decBlockHash_encBlockHash (bh : BlockHash) (rest : List Nat) :
    decBlockHash (encBlockHash bh ++ rest) = .ok (bh, rest) := by
  simp [encBlockHash, decBlockHash, decNat_encNat, decNatM_encNat,
    decNatsM_encNats]

/-! ### Consumption lemmas: a successful decode strictly shrinks the stream -/

theorem decNat_length {s : List Nat} {n : Nat} {r : List Nat}
    (h : decNat s = .ok (n, r)) : r.length < s.length := by
  simp only [decNat] at h
  split at h
  · exact absurd h (by simp)
  · next hemp =>
    split at h
    · exact absurd h (by simp)
    · next hlen =>
      rw [Except.ok.injEq, Prod.mk.injEq] at h
      obtain ⟨_, h2⟩ := h
      subst h2
      have hpos : 0 < s.length := by
        cases s
        · simp at hemp
        · simp
      rw [List.length_drop]
      omega

theorem decNatM_ok {s : List Nat} {n : Nat} {r : List Nat}
    (h : decNatM s = .ok (n, r)) : decNat s = .ok (n, r) := by
  unfold decNatM at h
  split at h
  · exact absurd h (by simp)
  · next v heq =>
    rw [Except.ok.injEq] at h
    rw [heq, h]

theorem decNatM_length {s : List Nat} {n : Nat} {r : List Nat}
    (h : decNatM s = .ok (n, r)) : r.length < s.length :=
  decNat_length (decNatM_ok h)

theorem decNatsM_length {s : List Nat} {d r : List Nat}
    (h : decNatsM s = .ok (d, r)) : r.length < s.length := by
  unfold decNatsM at h
  split at h
  · exact absurd h (by simp)
  · next n r1 heq =>
    split at h
    · exact absurd h (by simp)
    · rw [Except.ok.injEq, Prod.mk.injEq] at h
      obtain ⟨_, h2⟩ := h
      subst h2
      have := decNatM_length heq
      rw [List.length_drop]
      omega

theorem decOp_length {s : List Nat} {op : Op} {r : List Nat}
    (h : decOp s = .ok (op, r)) : r.length < s.length := by
  cases s with
  | nil => exact absurd h (by simp [decOp])
  | cons t s0 =>
    simp only [decOp] at h
    split at h
    · split at h
      · exact absurd h (by simp)
      · next off r1 heq1 =>
        split at h
        · exact absurd h (by simp)
        · next len r2 heq2 =>
          rw [Except.ok.injEq, Prod.mk.injEq] at h
          obtain ⟨_, h2⟩ := h
          subst h2
          have k1 := decNatM_length heq1
          have k2 := decNatM_length heq2
          simp only [List.length_cons]
          omega
    · split at h
      · split at h
        · exact absurd h (by simp)
        · next d1 r1 heq1 =>
          rw [Except.ok.injEq, Prod.mk.injEq] at h
          obtain ⟨_, h2⟩ := h
          subst h2
          have k1 := decNatsM_length heq1
          simp only [List.length_cons]
          omega
      · split at h
        · split at h
          · exact absurd h (by simp)
          · next d1 r1 heq1 =>
            rw [Except.ok.injEq, Prod.mk.injEq] at h
            obtain ⟨_, h2⟩ := h
            subst h2
            have k1 := decNatsM_length heq1
            simp only [List.length_cons]
            omega
        · exact absurd h (by simp)

theorem decBlockHash_length {s : List Nat} {bh : BlockHash} {r : List Nat}
    (h : decBlockHash s = .ok (bh, r)) : r.length < s.length := by
  unfold decBlockHash at h
  split at h
  · exact absurd h (by simp)
  · next idx r1 heq1 =>
    split at h
    · exact absurd h (by simp)
    · next weak r2 heq2 =>
      split at h
      · exact absurd h (by simp)
      · next strong r3 heq3 =>
        rw [Except.ok.injEq, Prod.mk.injEq] at h
        obtain ⟨_, h2⟩ := h
        subst h2
        have k1 := decNat_length heq1
        have k2 := decNatM_length heq2
        have k3 := decNatsM_length heq3
        omega

/-! ### Decode-loop characterization -/

theorem encOp_ne_nil (op : Op) : encOp op ≠ [] := by
  cases op <;> simp [encOp]

theorem encBlockHash_ne_nil (bh : BlockHash) : encBlockHash bh ≠ [] := by
  simp [encBlockHash, encNat]

theorem decodeOpsAux_eq (f : Nat) (s : List Nat) :
    decodeOpsAux f s =
      ((decodeAllAux f s).1.filter (fun op => !op.isHash),
       lastHashData (decodeAllAux f s).1,
       (decodeAllAux f s).2) := by
  induction f generalizing s with
  | zero => simp [decodeOpsAux, decodeAllAux, lastHashData]
  | succ f ih =>
    simp only [decodeOpsAux, decodeAllAux]
    cases hdec : decOp s with
    | error e => cases e <;> simp [lastHashData]
    | ok v =>
      obtain ⟨op, r⟩ := v
      cases op with
      | copy off len => simp [ih r, lastHashData, Op.isHash]
      | insert d => simp [ih r, lastHashData, Op.isHash]
      | hash d => simp [ih r, lastHashData, Op.isHash]

theorem decodeOps_eq (s : List Nat) :
    decodeOps s =
      ((decodeAll s).1.filter (fun op => !op.isHash),
       lastHashData (decodeAll s).1,
       (decodeAll s).2) :=
  decodeOpsAux_eq (s.length + 1) s

theorem decodeOpsAux_fuel (f1 : Nat) :
    ∀ (f2 : Nat) (s : List Nat), s.length < f1 → s.length < f2 →
      decodeOpsAux f1 s = decodeOpsAux f2 s := by
  induction f1 with
  | zero => intro f2 s h1; omega
  | succ f1 ih =>
    intro f2 s h1 h2
    cases f2 with
    | zero => omega
    | succ f2 =>
      simp only [decodeOpsAux]
      cases hdec : decOp s with
      | error e => cases e <;> rfl
      | ok v =>
        obtain ⟨op, r⟩ := v
        have hr := decOp_length hdec
        have := ih f2 r (by omega) (by omega)
        cases op <;> simp [this]

theorem decodeOps_cons (op : Op) (s : List Nat) :
    decodeOps (encOp op ++ s) =
      match op with
      | .hash d =>
        ((decodeOps s).1,
         (match (decodeOps s).2.1 with | some x => some x | none => some d),
         (decodeOps s).2.2)
      | _ => (op :: (decodeOps s).1, (decodeOps s).2.1, (decodeOps s).2.2) := by
  have hlen : s.length < (encOp op ++ s).length + 1 := by
    simp only [List.length_append]
    omega
  have hlt : s.length < (encOp op ++ s).length := by
    have := encOp_ne_nil op
    cases hop : encOp op with
    | nil => exact absurd hop this
    | cons a l =>
      simp only [hop, List.cons_append, List.length_cons, List.length_append]
      omega
  show decodeOpsAux ((encOp op ++ s).length + 1) (encOp op ++ s) = _
  simp only [decodeOpsAux, decOp_encOp]
  rw [decodeOpsAux_fuel ((encOp op ++ s).length) (s.length + 1) s hlt
    (by omega)]
  cases op <;> rfl

theorem decodeOps_nil : decodeOps [] = ([], none, none) := rfl

theorem decodeOps_encoded (ops : List Op) (tail : List Nat)
    (hnh : ∀ op ∈ ops, op.isHash = false) :
    decodeOps ((ops.map encOp).flatten ++ tail) =
      (ops ++ (decodeOps tail).1, (decodeOps tail).2.1,
       (decodeOps tail).2.2) := by
  induction ops with
  | nil => simp
  | cons op rest ih =>
    have hop : op.isHash = false := hnh op (List.mem_cons_self op rest)
    have hrest : ∀ o ∈ rest, o.isHash = false :=
      fun o ho => hnh o (List.mem_cons_of_mem op ho)
    have hs : ((op :: rest).map encOp).flatten ++ tail =
        encOp op ++ ((rest.map encOp).flatten ++ tail) := by
      simp
    rw [hs, decodeOps_cons, ih hrest]
    cases op with
    | copy off len => rfl
    | insert d => rfl
    | hash d => exact absurd hop (by simp [Op.isHash])

/-! ### Chunking lemmas -/

theorem chunkAux_fuel (bs : Nat) (hbs : 1 ≤ bs) (f1 : Nat) :
    ∀ (f2 : Nat) (l : List Nat), l.length ≤ f1 → l.length ≤ f2 →
      chunkAux bs f1 l = chunkAux bs f2 l := by
  induction f1 with
  | zero =>
    intro f2 l h1 h2
    cases l with
    | nil => cases f2 <;> rfl
    | cons x xs => simp at h1
  | succ f1 ih =>
    intro f2 l h1 h2
    cases l with
    | nil => cases f2 <;> rfl
    | cons x xs =>
      cases f2 with
      | zero => simp at h2
      | succ f2 =>
        simp only [chunkAux]
        congr 1
        apply ih
        · simp only [List.length_drop, List.length_cons] at h1 ⊢
          omega
        · simp only [List.length_drop, List.length_cons] at h2 ⊢
          omega

theorem chunkList_cons (bs : Nat) (hbs : 1 ≤ bs) (x : Nat) (xs : List Nat) :
    chunkList bs (x :: xs) =
      (x :: xs).take bs :: chunkList bs ((x :: xs).drop bs) := by
  show chunkAux bs (xs.length + 1) (x :: xs) = _
  simp only [chunkAux]
  congr 1
  apply chunkAux_fuel bs hbs
  · simp only [List.length_drop, List.length_cons]
    omega
  · exact Nat.le_refl _

theorem chunkAux_flatten (bs : Nat) (hbs : 1 ≤ bs) (f : Nat) :
    ∀ (l : List Nat), l.length ≤ f → (chunkAux bs f l).flatten = l := by
  induction f with
  | zero =>
    intro l h
    cases l with
    | nil => rfl
    | cons x xs => simp at h
  | succ f ih =>
    intro l h
    cases l with
    | nil => rfl
    | cons x xs =>
      simp only [chunkAux, List.flatten_cons]
      rw [ih _ (by simp only [List.length_drop, List.length_cons] at h ⊢; omega)]
      exact List.take_append_drop bs (x :: xs)

theorem chunkList_flatten (bs : Nat) (hbs : 1 ≤ bs) (l : List Nat) :
    (chunkList bs l).flatten = l :=
  chunkAux_flatten bs hbs l.length l (Nat.le_refl _)

theorem chunkAux_getElem (bs : Nat) (hbs : 1 ≤ bs) (f : Nat) :
    ∀ (l : List Nat) (i : Nat) (c : List Nat), l.length ≤ f →
      (chunkAux bs f l)[i]? = some c →
      c = (l.drop (i * bs)).take bs ∧ l.drop (i * bs) ≠ [] := by
  induction f with
  | zero =>
    intro l i c h1 h2
    cases l with
    | nil => simp [chunkAux] at h2
    | cons x xs => simp at h1
  | succ f ih =>
    intro l i c h1 h2
    cases l with
    | nil => simp [chunkAux] at h2
    | cons x xs =>
      simp only [chunkAux] at h2
      cases i with
      | zero =>
        rw [List.getElem?_cons_zero, Option.some.injEq] at h2
        refine ⟨?_, ?_⟩
        · rw [← h2]
          simp
        · simp
      | succ i =>
        rw [List.getElem?_cons_succ] at h2
        have hlen : ((x :: xs).drop bs).length ≤ f := by
          simp only [List.length_drop, List.length_cons] at h1 ⊢
          omega
        obtain ⟨hc, hne⟩ := ih _ i c hlen h2
        have hdd : ((x :: xs).drop bs).drop (i * bs) = (x :: xs).drop ((i + 1) * bs) := by
          rw [List.drop_drop]
          congr 1
          rw [Nat.succ_mul]
          omega
        rw [hdd] at hc hne
        exact ⟨hc, hne⟩

theorem chunkList_getElem (bs : Nat) (hbs : 1 ≤ bs) (l : List Nat) (i : Nat)
    (c : List Nat) (h : (chunkList bs l)[i]? = some c) :
    c = (l.drop (i * bs)).take bs ∧ l.drop (i * bs) ≠ [] :=
  chunkAux_getElem bs hbs l.length l i c (Nat.le_refl _) h

/-! ### Engine round-trip -/

theorem signBlocks_mem (cs : List (List Nat)) (bh : BlockHash) (i : Nat)
    (h : bh ∈ signBlocks i cs) :
    ∃ j c, cs[j]? = some c ∧ bh = ⟨i + j, weakModel c, strongModel c⟩ := by
  induction cs generalizing i with
  | nil => simp [signBlocks] at h
  | cons c0 cs ih =>
    simp only [signBlocks, List.mem_cons] at h
    rcases h with h | h
    · exact ⟨0, c0, by simp, by simpa using h⟩
    · obtain ⟨j, c, hj, hbh⟩ := ih (i + 1) h
      refine ⟨j + 1, c, by simpa using hj, ?_⟩
      rw [hbh]
      have : i + 1 + j = i + (j + 1) := by omega
      rw [this]

theorem take_min_length (l : List Nat) (n : Nat) :
    l.take (min n l.length) = l.take n := by
  rw [List.take_eq_take]
  omega

theorem applyOp_deltaOpFor (bs : Nat) (hbs : 1 ≤ bs) (basis out blk : List Nat) :
    applyOp basis out (deltaOpFor (createSignature bs basis) bs blk) =
      .ok (out ++ blk) := by
  unfold deltaOpFor
  cases hfind : (createSignature bs basis).find? (fun bh =>
      (bh.weak == weakModel blk) && (bh.strong == strongModel blk)) with
  | none => rfl
  | some bh =>
    have hp := List.find?_some hfind
    rw [Bool.and_eq_true, beq_iff_eq, beq_iff_eq] at hp
    have hmem := List.mem_of_find?_eq_some hfind
    obtain ⟨j, c, hj, hbh⟩ := signBlocks_mem (chunkList bs basis) bh 0 hmem
    obtain ⟨hc, hne⟩ := chunkList_getElem bs hbs basis j c hj
    have hidx : bh.index = j := by rw [hbh]; simp
    have hstrong : c = blk := by
      have h1 : bh.strong = strongModel c := by rw [hbh]
      have h2 : bh.strong = strongModel blk := hp.2
      simpa [strongModel] using h1.symm.trans h2
    have hRlen : (basis.drop (j * bs)).length = basis.length - j * bs :=
      List.length_drop _ _
    have hRpos : 0 < (basis.drop (j * bs)).length :=
      List.length_pos.mpr hne
    have hblklen : blk.length = min bs (basis.drop (j * bs)).length := by
      rw [← hstrong, hc, List.length_take]
    simp only [applyOp, hidx]
    have hcond : j * bs + blk.length ≤ basis.length := by
      rw [hblklen]
      omega
    rw [if_pos hcond]
    have htake : (basis.drop (j * bs)).take blk.length = blk := by
      rw [hblklen, take_min_length, ← hc, hstrong]
    rw [htake]

theorem applyOpsFrom_chunks (bs : Nat) (hbs : 1 ≤ bs) (basis : List Nat)
    (cs : List (List Nat)) :
    ∀ out : List Nat,
      applyOpsFrom basis out (cs.map (deltaOpFor (createSignature bs basis) bs)) =
        .ok (out ++ cs.flatten) := by
  induction cs with
  | nil => intro out; simp [applyOpsFrom]
  | cons blk cs ih =>
    intro out
    simp only [List.map_cons, applyOpsFrom,
      applyOp_deltaOpFor bs hbs basis out blk]
    rw [ih (out ++ blk)]
    simp

theorem applyOps_createDelta (bs : Nat) (hbs : 1 ≤ bs) (basis nf : List Nat) :
    applyOps basis (createDeltaOps bs (createSignature bs basis) nf) = .ok nf := by
  unfold applyOps createDeltaOps
  rw [applyOpsFrom_chunks bs hbs basis (chunkList bs nf) []]
  rw [chunkList_flatten bs hbs]
  rfl

theorem createDeltaOps_no_hash (bs : Nat) (hl : List BlockHash) (nf : List Nat) :
    ∀ op ∈ createDeltaOps bs hl nf, op.isHash = false := by
  intro op hop
  unfold createDeltaOps at hop
  obtain ⟨blk, _, hblk⟩ := List.mem_map.mp hop
  rw [← hblk]
  unfold deltaOpFor
  cases hl.find? (fun bh =>
      (bh.weak == weakModel blk) && (bh.strong == strongModel blk)) <;>
    simp [Op.isHash]

/-! ### Pipeline composition lemmas -/

theorem decBlockHashesAux_encoded (hl : List BlockHash) :
    ∀ f : Nat, ((hl.map encBlockHash).flatten).length < f →
      decBlockHashesAux f ((hl.map encBlockHash).flatten) = .ok hl := by
  induction hl with
  | nil =>
    intro f hf
    cases f with
    | zero => omega
    | succ f => rfl
  | cons bh hl ih =>
    intro f hf
    cases f with
    | zero => omega
    | succ f =>
      have hs : ((bh :: hl).map encBlockHash).flatten =
          encBlockHash bh ++ (hl.map encBlockHash).flatten := by simp
      rw [hs] at hf ⊢
      simp only [decBlockHashesAux, decBlockHash_encBlockHash]
      have hpos : 0 < (encBlockHash bh).length :=
        List.length_pos.mpr (encBlockHash_ne_nil bh)
      rw [ih f (by simp only [List.length_append] at hf; omega)]

theorem decBlockHashes_encoded (hl : List BlockHash) :
    decBlockHashes ((hl.map encBlockHash).flatten) = .ok hl :=
  decBlockHashesAux_encoded hl _ (Nat.lt_succ_self _)

theorem deltaPipeline_sig (bs : Nat) (basis nf : List Nat) (check : Bool) :
    deltaPipeline (signaturePipeline bs basis) nf check =
      .ok (deltaWrite bs (createDeltaOps bs (createSignature bs basis) nf)
        none (md5Model nf) check).1 := by
  unfold deltaPipeline signaturePipeline
  rw [decNat_encNat]
  simp only [decBlockHashes_encoded]
  cases check <;> rfl

theorem patchPipeline_header (basis : List Nat) (bs : Nat) (body : List Nat)
    (check : Bool) :
    patchPipeline basis (encNat bs ++ body) check =
      (match applyOps basis (decodeOps body).1 with
       | .error e => .error e
       | .ok out =>
         match (decodeOps body).2.2 with
         | some e => .error e
         | none =>
           if check = false then .ok out
           else
             match (decodeOps body).2.1 with
             | none => .error .noTargetSum
             | some sourceSum =>
               if sourceSum = md5Model out then .ok out
               else .error .hashNoMatch) := by
  unfold patchPipeline
  rw [decNat_encNat]

theorem decodeOps_sentinel (digest : List Nat) :
    decodeOps (encOp (.hash digest)) = ([], some digest, none) := by
  have h : encOp (.hash digest) = encOp (.hash digest) ++ [] := by simp
  rw [h, decodeOps_cons]
  rfl

theorem sig_delta_patch (bs : Nat) (hbs : 1 ≤ bs) (basis nf : List Nat)
    (check : Bool) :
    patchPipeline basis
      (deltaWrite bs (createDeltaOps bs (createSignature bs basis) nf)
        none (md5Model nf) check).1 check = .ok nf := by
  have hnh := createDeltaOps_no_hash bs (createSignature bs basis) nf
  have happ := applyOps_createDelta bs hbs basis nf
  cases check with
  | false =>
    show patchPipeline basis
      (encNat bs ++ ((createDeltaOps bs (createSignature bs basis) nf).map
        encOp).flatten) false = .ok nf
    rw [patchPipeline_header]
    have hb : ((createDeltaOps bs (createSignature bs basis) nf).map
        encOp).flatten =
        ((createDeltaOps bs (createSignature bs basis) nf).map
          encOp).flatten ++ [] := by simp
    rw [hb, decodeOps_encoded _ _ hnh, decodeOps_nil]
    simp only [List.append_nil]
    rw [happ]
    simp
  | true =>
    have hs : (deltaWrite bs (createDeltaOps bs (createSignature bs basis) nf)
        none (md5Model nf) true).1 =
        encNat bs ++
          (((createDeltaOps bs (createSignature bs basis) nf).map
            encOp).flatten ++ encOp (.hash (md5Model nf))) := by
      simp [deltaWrite]
    rw [hs, patchPipeline_header,
      decodeOps_encoded _ _ hnh, decodeOps_sentinel]
    simp only [List.append_nil]
    rw [happ]
    simp

/-! ### Comparator lemmas -/

theorem scanBytes_eq (b1 : List Nat) :
    ∀ (b2 : List Nat) (loc : Nat),
      scanBytes b1 b2 loc = (firstDiff b1 b2).map (fun d => loc + d) := by
  induction b1 with
  | nil => intro b2 loc; cases b2 <;> rfl
  | cons x xs ih =>
    intro b2 loc
    cases b2 with
    | nil => rfl
    | cons y ys =>
      by_cases hxy : x = y
      · subst hxy
        simp only [scanBytes, firstDiff, if_neg (by simp : ¬x ≠ x)]
        rw [ih ys (loc + 1)]
        cases firstDiff xs ys <;> simp <;> omega
      · simp [scanBytes, firstDiff, hxy]

theorem firstDiff_append_some (b1 : List Nat) :
    ∀ (b2 t1 t2 : List Nat) (d : Nat), firstDiff b1 b2 = some d →
      firstDiff (b1 ++ t1) (b2 ++ t2) = some d := by
  induction b1 with
  | nil => intro b2 t1 t2 d h; cases b2 <;> simp [firstDiff] at h
  | cons x xs ih =>
    intro b2 t1 t2 d h
    cases b2 with
    | nil => simp [firstDiff] at h
    | cons y ys =>
      by_cases hxy : x = y
      · subst hxy
        simp only [firstDiff, if_neg (by simp : ¬x ≠ x), Option.map_eq_some'] at h
        obtain ⟨d0, hd0, hd⟩ := h
        simp only [List.cons_append, firstDiff, if_neg (by simp : ¬x ≠ x),
          List.append_eq]
        rw [ih ys t1 t2 d0 hd0]
        simp [hd]
      · simp only [firstDiff, if_pos hxy, Option.some.injEq] at h
        simp [firstDiff, hxy, h]

theorem firstDiff_take_eq (b1 : List Nat) :
    ∀ b2 : List Nat, firstDiff b1 b2 = none →
      b1.take (min b1.length b2.length) = b2.take (min b1.length b2.length) := by
  induction b1 with
  | nil => intro b2 _; simp
  | cons x xs ih =>
    intro b2 h
    cases b2 with
    | nil => simp
    | cons y ys =>
      by_cases hxy : x = y
      · subst hxy
        simp only [firstDiff, if_neg (by simp : ¬x ≠ x),
          Option.map_eq_none'] at h
        simp only [List.length_cons]
        have hmin : min (xs.length + 1) (ys.length + 1) =
            min xs.length ys.length + 1 := by omega
        rw [hmin, List.take_succ_cons, List.take_succ_cons, ih ys h]
      · simp [firstDiff, hxy] at h

theorem firstDiff_prefix (p : List Nat) :
    ∀ u1 u2 : List Nat,
      firstDiff (p ++ u1) (p ++ u2) =
        (firstDiff u1 u2).map (fun d => p.length + d) := by
  induction p with
  | nil =>
    intro u1 u2
    cases h : firstDiff u1 u2 <;> simp [h]
  | cons x p ih =>
    intro u1 u2
    simp only [List.cons_append, firstDiff, if_neg (by simp : ¬x ≠ x),
      List.append_eq]
    rw [ih u1 u2]
    cases firstDiff u1 u2 <;> simp <;> omega

theorem mergeAux_spec (f : Nat) :
    ∀ (cs1 cs2 : List (List Nat)) (b1 b2 : List Nat) (loc : Nat),
      mergeMeasure cs1 cs2 b1 b2 < f →
      (b1 ++ cs1.flatten).length = (b2 ++ cs2.flatten).length →
      mergeAux f cs1 cs2 b1 b2 loc =
        match firstDiff (b1 ++ cs1.flatten) (b2 ++ cs2.flatten) with
        | none => .ok ()
        | some d => .error (.bytesDiffer (loc + d)) := by
  induction f with
  | zero =>
    intro cs1 cs2 b1 b2 loc hm _
    exact absurd hm (by omega)
  | succ f ih =>
    intro cs1 cs2 b1 b2 loc hm hlen
    cases b1 with
    | nil =>
      cases cs1 with
      | nil =>
        have h2 : (b2 ++ cs2.flatten).length = 0 := by
          simpa using hlen.symm
        have hb2 : b2 ++ cs2.flatten = [] :=
          List.eq_nil_of_length_eq_zero h2
        simp only [mergeAux, List.nil_append, List.flatten_nil, hb2]
        rfl
      | cons c cs =>
        simp only [mergeAux]
        have hm2 : mergeMeasure cs cs2 c b2 < f := by
          simp only [mergeMeasure, List.flatten_cons, List.length_append,
            List.length_cons, List.length_nil] at hm ⊢
          omega
        have hlen2 : (c ++ cs.flatten).length = (b2 ++ cs2.flatten).length := by
          simpa [List.flatten_cons] using hlen
        rw [ih cs cs2 c b2 loc hm2 hlen2]
        simp [List.flatten_cons]
    | cons a as =>
      cases b2 with
      | nil =>
        cases cs2 with
        | nil =>
          exfalso
          simp at hlen
        | cons c cs =>
          simp only [mergeAux]
          have hm2 : mergeMeasure cs1 cs (a :: as) c < f := by
            simp only [mergeMeasure, List.flatten_cons, List.length_append,
              List.length_cons, List.length_nil] at hm ⊢
            omega
          have hlen2 : ((a :: as) ++ cs1.flatten).length =
              (c ++ cs.flatten).length := by
            simpa [List.flatten_cons] using hlen
          rw [ih cs1 cs (a :: as) c loc hm2 hlen2]
          simp [List.flatten_cons]
      | cons e es =>
        simp only [mergeAux]
        cases hscan : scanBytes (a :: as) (e :: es) loc with
        | some l =>
          rw [scanBytes_eq, Option.map_eq_some'] at hscan
          obtain ⟨d, hd, hl⟩ := hscan
          rw [firstDiff_append_some _ _ _ _ _ hd]
          simp [← hl]
        | none =>
          rw [scanBytes_eq, Option.map_eq_none'] at hscan
          have hp := firstDiff_take_eq _ _ hscan
          have hsle1 : min (a :: as).length (e :: es).length ≤
              (a :: as).length := Nat.min_le_left _ _
          have hsle2 : min (a :: as).length (e :: es).length ≤
              (e :: es).length := Nat.min_le_right _ _
          have hspos : 1 ≤ min (a :: as).length (e :: es).length := by
            simp only [List.length_cons]
            omega
          have hm2 : mergeMeasure cs1 cs2
              ((a :: as).drop (min (a :: as).length (e :: es).length))
              ((e :: es).drop (min (a :: as).length (e :: es).length)) < f := by
            simp only [mergeMeasure, List.length_drop] at hm ⊢
            omega
          have hlen2 :
              (((a :: as).drop (min (a :: as).length (e :: es).length)) ++
                cs1.flatten).length =
              (((e :: es).drop (min (a :: as).length (e :: es).length)) ++
                cs2.flatten).length := by
            simp only [List.length_append, List.length_drop] at hlen ⊢
            omega
          rw [ih cs1 cs2 _ _ _ hm2 hlen2]
          have e1 : (a :: as) ++ cs1.flatten =
              (a :: as).take (min (a :: as).length (e :: es).length) ++
                (((a :: as).drop (min (a :: as).length (e :: es).length)) ++
                  cs1.flatten) := by
            rw [← List.append_assoc, List.take_append_drop]
          have e2 : (e :: es) ++ cs2.flatten =
              (a :: as).take (min (a :: as).length (e :: es).length) ++
                (((e :: es).drop (min (a :: as).length (e :: es).length)) ++
                  cs2.flatten) := by
            rw [hp, ← List.append_assoc, List.take_append_drop]
          rw [e1, e2, firstDiff_prefix]
          have hplen : ((a :: as).take
              (min (a :: as).length (e :: es).length)).length =
              min (a :: as).length (e :: es).length := by
            rw [List.length_take]
            omega
          rw [hplen]
          cases firstDiff
              (((a :: as).drop (min (a :: as).length (e :: es).length)) ++
                cs1.flatten)
              (((e :: es).drop (min (a :: as).length (e :: es).length)) ++
                cs2.flatten) with
          | none => rfl
          | some d =>
            simp [Nat.add_assoc]

theorem test_spec (f1 f2 : List Nat) (hlen : f1.length = f2.length) :
    test f1 f2 =
      match firstDiff f1 f2 with
      | none => .ok ()
      | some d => .error (.bytesDiffer d) := by
  unfold test
  rw [if_neg (by omega)]
  have hfl1 : (chunkList 32768 f1).flatten = f1 :=
    chunkList_flatten 32768 (by omega) f1
  have hfl2 : (chunkList 32768 f2).flatten = f2 :=
    chunkList_flatten 32768 (by omega) f2
  rw [mergeAux_spec _ (chunkList 32768 f1) (chunkList 32768 f2) [] [] 0
    (by simp only [mergeMeasure, hfl1, hfl2, List.length_nil]; omega)
    (by simp only [List.nil_append, hfl1, hfl2]; exact hlen)]
  simp only [List.nil_append, hfl1, hfl2]
  cases firstDiff f1 f2 <;> simp

theorem firstDiff_none_iff (l1 : List Nat) :
    ∀ l2 : List Nat, l1.length = l2.length →
      (firstDiff l1 l2 = none ↔ l1 = l2) := by
  induction l1 with
  | nil =>
    intro l2 h
    cases l2 with
    | nil => simp [firstDiff]
    | cons y ys => simp at h
  | cons x xs ih =>
    intro l2 h
    cases l2 with
    | nil => simp at h
    | cons y ys =>
      by_cases hxy : x = y
      · subst hxy
        simp only [firstDiff, if_neg (by simp : ¬x ≠ x),
          Option.map_eq_none', List.cons.injEq, true_and]
        exact ih ys (by simpa using h)
      · simp [firstDiff, hxy]

theorem firstDiff_some_spec (l1 : List Nat) :
    ∀ (l2 : List Nat) (d : Nat), firstDiff l1 l2 = some d →
      l1[d]? ≠ l2[d]? ∧ ∀ j, j < d → l1[j]? = l2[j]? := by
  induction l1 with
  | nil => intro l2 d h; cases l2 <;> simp [firstDiff] at h
  | cons x xs ih =>
    intro l2 d h
    cases l2 with
    | nil => simp [firstDiff] at h
    | cons y ys =>
      by_cases hxy : x = y
      · subst hxy
        simp only [firstDiff, if_neg (by simp : ¬x ≠ x),
          Option.map_eq_some'] at h
        obtain ⟨d0, hd0, hd⟩ := h
        obtain ⟨hne, hagree⟩ := ih ys d0 hd0
        subst hd
        refine ⟨by simpa using hne, ?_⟩
        intro j hj
        cases j with
        | zero => simp
        | succ j0 =>
          simp only [List.getElem?_cons_succ]
          exact hagree j0 (by omega)
      · simp only [firstDiff, if_pos hxy, Option.some.injEq] at h
        subst h
        refine ⟨by simpa using hxy, ?_⟩
        intro j hj
        omega

theorem firstDiff_complete (l1 : List Nat) :
    ∀ (l2 : List Nat) (d : Nat), l1.length = l2.length →
      l1[d]? ≠ l2[d]? → (∀ j, j < d → l1[j]? = l2[j]?) →
      firstDiff l1 l2 = some d := by
  induction l1 with
  | nil =>
    intro l2 d hlen hne _
    cases l2 with
    | nil => simp at hne
    | cons y ys => simp at hlen
  | cons x xs ih =>
    intro l2 d hlen hne hagree
    cases l2 with
    | nil => simp at hlen
    | cons y ys =>
      cases d with
      | zero =>
        have hxy : x ≠ y := by simpa using hne
        simp [firstDiff, hxy]
      | succ d0 =>
        have hxy : x = y := by
          have := hagree 0 (by omega)
          simpa using this
        subst hxy
        simp only [firstDiff, if_neg (by simp : ¬x ≠ x)]
        have hfd : firstDiff xs ys = some d0 := by
          apply ih ys d0 (by simpa using hlen) (by simpa using hne)
          intro j hj
          have := hagree (j + 1) (by omega)
          simpa using this
        rw [hfd]
        rfl

/-! ### Header truncation and patch unfolding lemmas -/

theorem takeWhile_eq_self_of_no_term (s : List Nat) (h : ∀ b ∈ s, b ≠ 255) :
    s.takeWhile (fun b => b != 255) = s := by
  induction s with
  | nil => rfl
  | cons x xs ih =>
    have hx : (x != 255) = true := by
      simp only [bne_iff_ne, ne_eq]
      exact h x (List.mem_cons_self x xs)
    simp only [List.takeWhile_cons, hx, if_true]
    rw [ih (fun b hb => h b (List.mem_cons_of_mem x hb))]

theorem decNat_truncated (s : List Nat) (h : ∀ b ∈ s, b ≠ 255) :
    decNat s = .error .eof ∨ decNat s = .error .unexpectedEOF := by
  cases s with
  | nil => left; rfl
  | cons x xs =>
    right
    unfold decNat
    rw [if_neg (by simp)]
    rw [takeWhile_eq_self_of_no_term _ h]
    simp

theorem patchPipeline_decode (basis s : List Nat) (check : Bool) (bs : Nat)
    (rest : List Nat) (hh : decNat s = .ok (bs, rest)) :
    patchPipeline basis s check =
      (match applyOps basis (decodeOps rest).1 with
       | .error e => .error e
       | .ok out =>
         match (decodeOps rest).2.2 with
         | some e => .error e
         | none =>
           if check = false then .ok out
           else
             match (decodeOps rest).2.1 with
             | none => .error .noTargetSum
             | some sourceSum =>
               if sourceSum = md5Model out then .ok out
               else .error .hashNoMatch) := by
  unfold patchPipeline
  rw [hh]

theorem decodeOps_encoded_nil (ops : List Op)
    (hnh : ∀ op ∈ ops, op.isHash = false) :
    decodeOps ((ops.map encOp).flatten) = (ops, none, none) := by
  have hb : (ops.map encOp).flatten = (ops.map encOp).flatten ++ [] := by simp
  rw [hb, decodeOps_encoded ops [] hnh, decodeOps_nil]
  simp

theorem patch_false_on_checked_delta (bs : Nat) (hbs : 1 ≤ bs)
    (basis nf : List Nat) :
    patchPipeline basis
      (deltaWrite bs (createDeltaOps bs (createSignature bs basis) nf)
        none (md5Model nf) true).1 false = .ok nf := by
  have hnh := createDeltaOps_no_hash bs (createSignature bs basis) nf
  have happ := applyOps_createDelta bs hbs basis nf
  have hs : (deltaWrite bs (createDeltaOps bs (createSignature bs basis) nf)
      none (md5Model nf) true).1 =
      encNat bs ++
        (((createDeltaOps bs (createSignature bs basis) nf).map
          encOp).flatten ++ encOp (.hash (md5Model nf))) := by
    simp [deltaWrite]
  rw [hs, patchPipeline_header, decodeOps_encoded _ _ hnh, decodeOps_sentinel]
  simp only [List.append_nil]
  rw [happ]
  simp

/-! ### Claims -/

/-- C1: For every run of the patch operation with checking enabled in which
the block-size header decodes, the decode loop captures no error and the
apply step succeeds: a missing sentinel (no checksum captured) returns the
distinguished no-target-checksum error; a captured payload differing from
the finalized hash of the reconstructed output returns the distinguished
checksum-mismatch error; a matching payload returns success. -/
theorem C1_patch_integrity_verdict (basis s : List Nat) (bs : Nat)
    (rest out : List Nat)
    (hh : decNat s = .ok (bs, rest))
    (hd : (decodeOps rest).2.2 = none)
    (ha : applyOps basis (decodeOps rest).1 = .ok out) :
    ((decodeOps rest).2.1 = none →
      patchPipeline basis s true = .error .noTargetSum) ∧
    (∀ d, (decodeOps rest).2.1 = some d → d ≠ md5Model out →
      patchPipeline basis s true = .error .hashNoMatch) ∧
    (∀ d, (decodeOps rest).2.1 = some d → d = md5Model out →
      patchPipeline basis s true = .ok out) := by
  refine ⟨?_, ?_, ?_⟩
  · intro hs
    rw [patchPipeline_decode basis s true bs rest hh, ha, hd, hs]
    rfl
  · intro d hs hne
    rw [patchPipeline_decode basis s true bs rest hh, ha, hd, hs]
    simp [hne]
  · intro d hs heq
    rw [patchPipeline_decode basis s true bs rest hh, ha, hd, hs]
    simp [heq]

/-- Witness for C1 at a concrete delta stream with no sentinel. -/
theorem C1_patch_integrity_verdict_witness :
    patchPipeline [] (encNat 4) true = .error .noTargetSum :=
  (C1_patch_integrity_verdict [] (encNat 4) 4 [] [] rfl rfl rfl).1 rfl

/-- C2: For files of equal size the comparator succeeds iff every byte
position is equal, and on the first differing byte it fails reporting
exactly that offset; for files of unequal size it returns the distinguished
size-mismatch failure, decided from the sizes alone (it holds for all
contents of those sizes). -/
theorem C2_comparator (f1 f2 : List Nat) :
    (f1.length ≠ f2.length → test f1 f2 = .error .sizeDifferent) ∧
    (f1.length = f2.length →
      ((test f1 f2 = .ok ()) ↔ ∀ i : Nat, f1[i]? = f2[i]?) ∧
      (∀ d : Nat, f1[d]? ≠ f2[d]? → (∀ j : Nat, j < d → f1[j]? = f2[j]?) →
        test f1 f2 = .error (.bytesDiffer d))) := by
  constructor
  · intro hne
    unfold test
    rw [if_pos hne]
  · intro hlen
    constructor
    · rw [test_spec f1 f2 hlen]
      constructor
      · intro hok
        cases hfd : firstDiff f1 f2 with
        | none =>
          have heq := (firstDiff_none_iff f1 f2 hlen).mp hfd
          intro i
          rw [heq]
        | some d =>
          rw [hfd] at hok
          exact absurd hok (by simp)
      · intro hall
        have heq : f1 = f2 := List.ext_getElem? hall
        rw [(firstDiff_none_iff f1 f2 hlen).mpr heq]
    · intro d hne hagree
      rw [test_spec f1 f2 hlen, firstDiff_complete f1 f2 d hlen hne hagree]

/-- Witness for C2 at concrete file pairs for each clause. -/
theorem C2_comparator_witness :
    test [0] [0, 0] = .error .sizeDifferent ∧
    test [3, 4] [3, 4] = .ok () ∧
    test [0, 1] [0, 2] = .error (.bytesDiffer 1) := by
  refine ⟨(C2_comparator [0] [0, 0]).1 (by decide), ?_, ?_⟩
  · exact (((C2_comparator [3, 4] [3, 4]).2 rfl).1).mpr (fun i => rfl)
  · refine ((C2_comparator [0, 1] [0, 2]).2 rfl).2 1 (by decide) ?_
    intro j hj
    have hj0 : j = 0 := by omega
    subst hj0
    rfl

/-- C3: For every basis, every new file and every positive block size,
patching the basis with the delta produced from the basis's signature and
the new file reconstructs the new file exactly. -/
theorem C3_roundtrip (bs : Nat) (hbs : 0 < bs) (basis nf : List Nat)
    (check : Bool) :
    ∃ ds, deltaPipeline (signaturePipeline bs basis) nf check = .ok ds ∧
      patchPipeline basis ds check = .ok nf :=
  ⟨_, deltaPipeline_sig bs basis nf check,
    sig_delta_patch bs hbs basis nf check⟩

/-- Witness for C3 at a concrete basis, new file and block size. -/
theorem C3_roundtrip_witness :
    ∃ ds, deltaPipeline (signaturePipeline 2 [0, 1, 2]) [0, 1, 9] true =
        .ok ds ∧
      patchPipeline [0, 1, 2] ds true = .ok [0, 1, 9] :=
  C3_roundtrip 2 (by decide) [0, 1, 2] [0, 1, 9] true

/-- C4: A stream exhausted before the block-size header terminator is
decoded (no complete header record) makes both the delta pipeline (signature
header) and the patch pipeline (delta header) fail with the distinguished
unexpected-end-of-stream error, distinct from ordinary end-of-stream and
from generic decode and read errors. -/
theorem C4_truncated_header (s basis nf : List Nat) (check : Bool)
    (h : ∀ b ∈ s, b ≠ 255) :
    deltaPipeline s nf check = .error .unexpectedEOF ∧
    patchPipeline basis s check = .error .unexpectedEOF ∧
    Err.unexpectedEOF ≠ Err.eof ∧
    Err.unexpectedEOF ≠ Err.decodeCorrupt ∧
    Err.unexpectedEOF ≠ Err.readError := by
  have hd := decNat_truncated s h
  refine ⟨?_, ?_, by simp, by simp, by simp⟩
  · unfold deltaPipeline
    rcases hd with h1 | h1 <;> rw [h1] <;> rfl
  · unfold patchPipeline
    rcases hd with h1 | h1 <;> rw [h1] <;> rfl

/-- Witness for C4 at the empty stream and at a one-byte truncated header. -/
theorem C4_truncated_header_witness :
    deltaPipeline [] [3] true = .error .unexpectedEOF ∧
    patchPipeline [] [7] true = .error .unexpectedEOF :=
  ⟨(C4_truncated_header [] [] [3] true (by simp)).1,
   (C4_truncated_header [7] [] [] true (by decide)).2.1⟩

/-- C5: In every run of the patch decode loop, sentinel operations are
captured (the payload a last-assignment capture ends with) and never
forwarded to the apply engine, and the forwarded operations are exactly the
non-sentinel operations in decoded order. -/
theorem C5_sentinel_filtering (s : List Nat) :
    (decodeOps s).1 = (decodeAll s).1.filter (fun op => !op.isHash) ∧
    (decodeOps s).2.1 = lastHashData (decodeAll s).1 ∧
    (decodeOps s).2.2 = (decodeAll s).2 := by
  rw [decodeOps_eq s]
  exact ⟨rfl, rfl, rfl⟩

/-- C6: When the decode loop captures an error (which it does only for
errors other than end-of-stream) and the apply step completes without
error, the patch operation returns that decode error. -/
theorem C6_decode_error_preserved (basis s : List Nat) (check : Bool)
    (bs : Nat) (rest out : List Nat) (e : Err)
    (hh : decNat s = .ok (bs, rest))
    (hd : (decodeOps rest).2.2 = some e)
    (ha : applyOps basis (decodeOps rest).1 = .ok out) :
    patchPipeline basis s check = .error e := by
  rw [patchPipeline_decode basis s check bs rest hh, ha, hd]

/-- Witness for C6 at a delta stream whose body has an invalid type tag. -/
theorem C6_decode_error_preserved_witness :
    patchPipeline [] (encNat 4 ++ [7]) true = .error .decodeCorrupt :=
  C6_decode_error_preserved [] (encNat 4 ++ [7]) true 4 [7] []
    .decodeCorrupt rfl rfl rfl

/-- C7: Encoding any Operation (copy, insert or hash sentinel) with the
framing codec and decoding it back yields the identical operation — type
tag and payload included — and leaves the rest of the stream intact. -/
theorem C7_op_roundtrip (op : Op) (rest : List Nat) :
    decOp (encOp op ++ rest) = .ok (op, rest) :=
  decOp_encOp op rest

/-- C8: When the engine's delta generator fails with checking enabled, the
delta verb returns that error and the sentinel is not written (the stream is
exactly the header plus the already-encoded operations); patching such a
sentinel-less stream with checking enabled never succeeds, and when the
apply step succeeds it fails precisely with the no-target-checksum error. -/
theorem C8_engine_error (bs : Nat) (ops : List Op) (e : Err)
    (digest : List Nat) (basis : List Nat)
    (hnh : ∀ op ∈ ops, op.isHash = false) :
    deltaWrite bs ops (some e) digest true =
      (encNat bs ++ (ops.map encOp).flatten, some e) ∧
    (∀ out, applyOps basis ops = .ok out →
      patchPipeline basis (deltaWrite bs ops (some e) digest true).1 true =
        .error .noTargetSum) ∧
    (∀ out, patchPipeline basis (deltaWrite bs ops (some e) digest true).1
      true ≠ .ok out) := by
  have hw : deltaWrite bs ops (some e) digest true =
      (encNat bs ++ (ops.map encOp).flatten, some e) := rfl
  have hpatch : patchPipeline basis
      (deltaWrite bs ops (some e) digest true).1 true =
      (match applyOps basis ops with
       | .error e2 => .error e2
       | .ok _ => .error .noTargetSum) := by
    rw [hw, patchPipeline_header, decodeOps_encoded_nil ops hnh]
    cases applyOps basis ops <;> rfl
  refine ⟨hw, ?_, ?_⟩
  · intro out ha
    rw [hpatch, ha]
  · intro out hok
    rw [hpatch] at hok
    cases hap : applyOps basis ops with
    | error e2 =>
      rw [hap] at hok
      exact absurd hok (by simp)
    | ok out2 =>
      rw [hap] at hok
      exact absurd hok (by simp)

/-- Witness for C8 at a one-insert engine run failing with a concrete
error. -/
theorem C8_engine_error_witness :
    deltaWrite 4 [Op.insert [5]] (some (Err.engineError 3)) [9] true =
      (encNat 4 ++ ([Op.insert [5]].map encOp).flatten,
        some (Err.engineError 3)) ∧
    patchPipeline []
      (deltaWrite 4 [Op.insert [5]] (some (Err.engineError 3)) [9] true).1
      true = .error .noTargetSum :=
  ⟨(C8_engine_error 4 [Op.insert [5]] (Err.engineError 3) [9] []
      (by decide)).1,
   (C8_engine_error 4 [Op.insert [5]] (Err.engineError 3) [9] []
      (by decide)).2.1 [5] rfl⟩

/-- C9: The signature pipeline is deterministic: two runs on the same
unmodified basis with the same block size produce byte-identical framed
output streams (the pipeline is a pure function of its inputs). -/
theorem C9_signature_deterministic (bs1 bs2 : Nat) (b1 b2 : List Nat)
    (hbs : bs1 = bs2) (hb : b1 = b2) :
    signaturePipeline bs1 b1 = signaturePipeline bs2 b2 := by
  rw [hbs, hb]

/-- Witness for C9 at a concrete basis and block size. -/
theorem C9_signature_deterministic_witness :
    signaturePipeline 2 [1, 2, 3] = signaturePipeline 2 [1, 2, 3] :=
  C9_signature_deterministic 2 2 [1, 2, 3] [1, 2, 3] rfl rfl

/-- C10: With checking disabled, sentinels are still filtered out of the
operation stream (nothing forwarded to the apply engine is a sentinel) and
patch succeeds after an error-free apply regardless of sentinel presence or
payload; consequently a delta produced with checking enabled patches with
checking disabled to the same reconstructed output as with checking
enabled. -/
theorem C10_check_disabled (basis s : List Nat) (bs : Nat)
    (rest out : List Nat)
    (hh : decNat s = .ok (bs, rest))
    (hd : (decodeOps rest).2.2 = none)
    (ha : applyOps basis (decodeOps rest).1 = .ok out) :
    (∀ op ∈ (decodeOps rest).1, op.isHash = false) ∧
    patchPipeline basis s false = .ok out ∧
    (∀ bs0 nf, 0 < bs0 →
      ∀ ds, deltaPipeline (signaturePipeline bs0 basis) nf true = .ok ds →
        patchPipeline basis ds false = .ok nf ∧
        patchPipeline basis ds false = patchPipeline basis ds true) := by
  refine ⟨?_, ?_, ?_⟩
  · intro op hop
    have h1 : (decodeOps rest).1 =
        (decodeAll rest).1.filter (fun op => !op.isHash) := by
      rw [decodeOps_eq rest]
    rw [h1] at hop
    have h2 := (List.mem_filter.mp hop).2
    simpa using h2
  · rw [patchPipeline_decode basis s false bs rest hh, ha, hd]
    rfl
  · intro bs0 nf hbs0 ds hds
    rw [deltaPipeline_sig bs0 basis nf true, Except.ok.injEq] at hds
    subst hds
    constructor
    · exact patch_false_on_checked_delta bs0 hbs0 basis nf
    · rw [patch_false_on_checked_delta bs0 hbs0 basis nf,
        sig_delta_patch bs0 hbs0 basis nf true]

/-- Witness for C10 at a delta stream consisting of a header and a lone
sentinel, plus a concrete checked delta patched with checking disabled. -/
theorem C10_check_disabled_witness :
    patchPipeline [] (encNat 4 ++ encOp (Op.hash [1])) false = .ok [] ∧
    patchPipeline [] [1, 255, 1, 1, 255, 2, 2, 1, 255, 2] false = .ok [2] :=
  ⟨(C10_check_disabled [] (encNat 4 ++ encOp (Op.hash [1])) 4
      (encOp (Op.hash [1])) [] rfl rfl rfl).2.1,
   ((C10_check_disabled [] (encNat 4 ++ encOp (Op.hash [1])) 4
      (encOp (Op.hash [1])) [] rfl rfl rfl).2.2 1 [2] (by decide)
      [1, 255, 1, 1, 255, 2, 2, 1, 255, 2] rfl).1⟩

end RDiff
